import Mathlib

/-!
Verification of the indexing and reconciliation engine of `somebm25.py`
(class `BM25WhooshSearch`).

The embedding models:
- a document record as stored in the whoosh index (fields `filepath`,
  `filepath_search`, `content`, `modified`, schema at lines 74-79);
- the committed index snapshot as a list of document records whose
  `filepath` values are the unique keys;
- `get_file_mod_time` (lines 168-172): first stored record for a path;
- `update_index` (lines 133-165): the reconciliation generator, fully
  iterated.  The for-loop over `files_to_index.items()` is rendered
  declaratively: the entries that pass the `file not in indexed_files or
  mod_time != get_file_mod_time(idx, file)` test form `toProcess`
  (these are exactly the paths handed to the extractor), the staged
  `update_document` calls are `stagedUpserts`, the staged
  `delete_by_term` calls are `stagedDeletes`, and `commitIndex` applies
  both sets of staged operations to the old snapshot (an upsert replaces
  any record with the same unique key; per run each path occurs at most
  once since `files_to_index` is a dict).  All searcher reads inside the
  run see the pre-run snapshot because nothing is committed until
  `writer.commit()`.  Progress values `(i / total_files) * 100` are
  modelled in `ℚ`; the trailing `yield 100` follows the commit.
- the scanner `get_all_files` (lines 88-95): `os.walk` over
  `folder_path`; with the default `onerror=None`, a nonexistent root
  yields no entries and raises nothing;
- `search` (lines 174-181): the hit set of the multifield query over
  `content` and `filepath_search`; the BM25F score ordering is delegated
  to the whoosh library, so the model captures membership (which
  documents can appear as hits) and the `limit=top_n` truncation, not
  the ranking order;
- `update_index` being a Python generator function: calling it builds a
  suspended generator and executes none of the body until the generator
  is iterated (`callUpdateIndex` / `iterateAll` / `mainBlock`, the
  latter mirroring the `__main__` block at lines 465-471 which never
  iterates the generator it creates).

The extractor (`extract_text`) is an abstract collaborator
`Path → Option String`; `None` models every failure path of
`extract_text`, and the Python truthiness test `if content:` is false
both for `None` and for the empty string.
-/

namespace SomeBM25

/-- Filesystem paths; the unique document key. -/
abbrev Path := String

/-- Opaque modification token (`str(os.path.getmtime(p))`). -/
abbrev Token := String

/-- One document record in the whoosh index, following the schema at
lines 74-79 of `somebm25.py`: `filepath` (unique, stored),
`filepath_search` (indexed copy of the path), `content` (indexed),
`modified` (stored change-detection token). -/
structure Doc where
  filepath : Path
  filepath_search : Path
  content : String
  modified : Token
deriving DecidableEq, Repr

/-- The unique keys of the committed snapshot: the loop at lines 140-142
collecting `doc["filepath"]` for every stored document. -/
def indexedFiles (idx : List Doc) : List Path :=
  idx.map Doc.filepath

/-- Model of `get_file_mod_time` (lines 168-172): look up the stored `modified`
token of `filepath`, `None` when no record exists. -/
def get_file_mod_time (idx : List Doc) (filepath : Path) : Option Token :=
  match idx.find? (fun d => decide (d.filepath = filepath)) with
  | some d => some d.modified
  | none => none

/-- The test at line 146: `file not in indexed_files or
mod_time != self.get_file_mod_time(idx, file)`. -/
def shouldProcess (idx : List Doc) (file : Path) (mod_time : Token) : Bool :=
  decide (file ∉ indexedFiles idx ∨ get_file_mod_time idx file ≠ some mod_time)

/-- The scan entries that reach the extractor: those passing the test at
line 146. -/
def toProcess (idx : List Doc) (files_to_index : List (Path × Token)) :
    List (Path × Token) :=
  files_to_index.filter (fun fm => shouldProcess idx fm.1 fm.2)

/-- The document staged by `writer.update_document` at lines 149-154 for
one processed entry, or `none` when `if content:` fails (extractor
returned `None`, or returned the empty string, both falsy in Python). -/
def stagedDoc (extract : Path → Option String) (file : Path) (mod_time : Token) :
    Option Doc :=
  match extract file with
  | some content => if content = "" then none else some ⟨file, file, content, mod_time⟩
  | none => none

/-- All `update_document` calls staged by the loop at lines 145-154. -/
def stagedUpserts (idx : List Doc) (files_to_index : List (Path × Token))
    (extract : Path → Option String) : List Doc :=
  (toProcess idx files_to_index).filterMap (fun fm => stagedDoc extract fm.1 fm.2)

/-- All `delete_by_term("filepath", f)` calls staged by the loop at
lines 160-162: previously indexed paths absent from the scan. -/
def stagedDeletes (idx : List Doc) (files_to_index : List (Path × Token)) :
    List Path :=
  (indexedFiles idx).filter (fun f => decide (f ∉ files_to_index.map Prod.fst))

/-- The progress values yielded by one full run: `(i / total_files) * 100`
for `i = 1 .. total_files` (line 157), then the `yield 100` after the
commit (line 165). -/
def progressList (total_files : Nat) : List ℚ :=
  ((List.range total_files).map
    (fun i => (((i + 1 : Nat) : ℚ) / (total_files : ℚ)) * 100)) ++ [100]

/-- Model of `writer.commit()` (line 164): apply the staged operations to the old
snapshot.  A record survives unless a staged deletion names its key or a
staged upsert replaces it; the staged upserts are appended. -/
def commitIndex (idx : List Doc) (upserts : List Doc) (deletes : List Path) :
    List Doc :=
  (idx.filter (fun d =>
    decide (d.filepath ∉ deletes ∧ d.filepath ∉ upserts.map Doc.filepath))) ++ upserts

/-- Everything observable about one fully iterated `update_index` run:
the yielded progress values, the committed snapshot, the trace of
extractor invocations, and the staged operations. -/
structure UpdateResult where
  progress : List ℚ
  newIndex : List Doc
  extracted : List Path
  upserts : List Doc
  deletes : List Path
deriving Repr

/-- Model of `update_index` (lines 133-165), fully iterated.  `files_to_index` is
the scan result (`get_all_files`, a dict, so its keys are distinct in
any real run); `extract` is the `extract_text` collaborator; `idx` is
the committed snapshot the run starts from. -/
def update_index (files_to_index : List (Path × Token))
    (extract : Path → Option String) (idx : List Doc) : UpdateResult :=
  { progress := progressList files_to_index.length
    newIndex := commitIndex idx (stagedUpserts idx files_to_index extract)
      (stagedDeletes idx files_to_index)
    extracted := (toProcess idx files_to_index).map Prod.fst
    upserts := stagedUpserts idx files_to_index extract
    deletes := stagedDeletes idx files_to_index }

/-- Split a character list into maximal space-free words, accumulating
the (reversed) current word. -/
def splitWordsAux : List Char → List Char → List String
  | [], acc => if acc = [] then [] else [String.mk acc.reverse]
  | c :: cs, acc =>
    if c = ' ' then
      (if acc = [] then [] else [String.mk acc.reverse]) ++ splitWordsAux cs []
    else
      splitWordsAux cs (c :: acc)

/-- Tokenization of an indexed field by the analyzer: the words of the
text.  The exact analyzer is the whoosh default; only membership of
terms matters to the claims below. -/
def tokens (s : String) : List String :=
  splitWordsAux s.data []

/-- A term matches a document when it occurs in either queried field
(`MultifieldParser(["content", "filepath_search"], ...)`, line 177). -/
def termMatches (d : Doc) (t : String) : Bool :=
  (tokens d.content).contains t || (tokens d.filepath_search).contains t

/-- A document is a hit for the parsed query when every query term
matches it in some field (whoosh's default grouping) and the query is
nonempty (an empty query parses to no results). -/
def matchesQuery (d : Doc) (q : List String) : Bool :=
  decide (q ≠ []) && q.all (termMatches d)

/-- Model of `search` (lines 174-181): the hits of the multifield query over the
committed snapshot, truncated to `top_n` (`limit=top_n`).  The BM25F
score ordering among hits is delegated to the whoosh library; the model
fixes the hit set, which is what the deletion claim needs. -/
def search (idx : List Doc) (q : List String) (top_n : Nat) : List Path :=
  ((idx.filter (fun d => matchesQuery d q)).map Doc.filepath).take top_n

/-- A filesystem snapshot: the existing directories and every regular
file with its modification token. -/
structure FileSystem where
  dirs : List Path
  allFiles : List (Path × Token)

/-- Whether the second path lies below the first (textual path
containment, as produced by `os.walk` plus `os.path.join`). -/
def isPathUnder : List Char → List Char → Bool
  | [], _ => true
  | _ :: _, [] => false
  | c :: cs, d :: ds => c = d && isPathUnder cs ds

/-- Model of `get_all_files` (lines 88-95): `os.walk(folder_path)` collecting
every file below the root with `str(os.path.getmtime(...))`.  With the
default `onerror=None`, `os.walk` on a path that is not an existing
directory yields nothing and raises nothing, so the scan of an invalid
root is empty. -/
def get_all_files (fs : FileSystem) (folder_path : Path) : List (Path × Token) :=
  if folder_path ∈ fs.dirs then
    fs.allFiles.filter (fun pt => isPathUnder folder_path.data pt.1.data)
  else []

/-- One full `update_index` run driven by a scan of `folder_path`, as in
`BM25WhooshSearch(folder_path)` followed by iterating
`update_index(idx)`. -/
def updateRun (fs : FileSystem) (folder_path : Path)
    (extract : Path → Option String) (idx : List Doc) : UpdateResult :=
  update_index (get_all_files fs folder_path) extract idx

/-- A Python generator object returned by calling the generator function
`update_index`: the body is suspended and runs only when iterated. -/
structure UpdateGenerator where
  body : Unit → UpdateResult

/-- Calling `update_index(idx)`: Python evaluates none of a generator
function's body at call time; it only packages the suspended frame.  The
index state is returned unchanged alongside the generator. -/
def callUpdateIndex (files_to_index : List (Path × Token))
    (extract : Path → Option String) (idx : List Doc) :
    UpdateGenerator × List Doc :=
  ({ body := fun _ => update_index files_to_index extract idx }, idx)

/-- Iterating the generator to exhaustion runs the whole body, including
the commit. -/
def iterateAll (g : UpdateGenerator) : UpdateResult :=
  g.body ()

/-- The `__main__` block (lines 465-471): it evaluates
`search_engine.update_index(search_engine.index)` and discards the
resulting generator without ever iterating it, then continues with the
index state it already had. -/
def mainBlock (files_to_index : List (Path × Token))
    (extract : Path → Option String) (idx : List Doc) : List Doc :=
  (callUpdateIndex files_to_index extract idx).2

example :
    (update_index [("a", "1")] (fun _ => some "hello world") []).newIndex
      = [⟨"a", "a", "hello world", "1"⟩] := by decide

example :
    (update_index [("a", "1")] (fun _ => some "") []).newIndex = [] := by decide

example :
    (update_index [] (fun _ => none)
      [⟨"a", "a", "x", "1"⟩]).newIndex = [] := by decide

example :
    (update_index [("a", "1")] (fun _ => some "y")
      [⟨"a", "a", "x", "1"⟩]).extracted = [] := by decide

example :
    (update_index [("a", "2")] (fun _ => some "y")
      [⟨"a", "a", "x", "1"⟩]).extracted = ["a"] := by decide

example : (update_index [] (fun _ => none) []).progress = [100] := by decide

example :
    (update_index [("a", "1"), ("b", "1")] (fun _ => some "z") []).progress
      = [50, 100, 100] := by
  show progressList 2 = [50, 100, 100]
  norm_num [progressList, List.range_succ]

example :
    search [⟨"a", "a", "hello world", "1"⟩] ["hello"] 10 = ["a"] := by decide

example :
    search [⟨"a", "a", "hello world", "1"⟩] ["nope"] 10 = [] := by decide

/-! ### Basic characterizations of the staged operations -/

theorem shouldProcess_true_iff {idx : List Doc} {f : Path} {m : Token} :
    shouldProcess idx f m = true ↔
      f ∉ indexedFiles idx ∨ get_file_mod_time idx f ≠ some m := by
  simp [shouldProcess]

theorem shouldProcess_false_iff {idx : List Doc} {f : Path} {m : Token} :
    shouldProcess idx f m = false ↔
      f ∈ indexedFiles idx ∧ get_file_mod_time idx f = some m := by
  simp [shouldProcess, not_or]

theorem mem_toProcess {idx : List Doc} {files : List (Path × Token)}
    {fm : Path × Token} :
    fm ∈ toProcess idx files ↔ fm ∈ files ∧ shouldProcess idx fm.1 fm.2 = true := by
  simp [toProcess]

theorem mem_stagedUpserts {idx : List Doc} {files : List (Path × Token)}
    {extract : Path → Option String} {d : Doc} :
    d ∈ stagedUpserts idx files extract ↔
      ∃ fm, fm ∈ files ∧ shouldProcess idx fm.1 fm.2 = true ∧
        stagedDoc extract fm.1 fm.2 = some d := by
  simp [stagedUpserts, toProcess, List.mem_filterMap, List.mem_filter, and_assoc]

theorem mem_stagedDeletes {idx : List Doc} {files : List (Path × Token)}
    {f : Path} :
    f ∈ stagedDeletes idx files ↔
      f ∈ indexedFiles idx ∧ f ∉ files.map Prod.fst := by
  simp [stagedDeletes]

theorem mem_commitIndex {idx ups : List Doc} {dels : List Path} {d : Doc} :
    d ∈ commitIndex idx ups dels ↔
      (d ∈ idx ∧ d.filepath ∉ dels ∧ d.filepath ∉ ups.map Doc.filepath) ∨
        d ∈ ups := by
  simp [commitIndex, List.mem_filter, and_assoc]

theorem stagedDoc_eq_some {extract : Path → Option String} {f : Path} {m : Token}
    {d : Doc} (h : stagedDoc extract f m = some d) :
    ∃ c, extract f = some c ∧ c ≠ "" ∧ d = ⟨f, f, c, m⟩ := by
  cases hx : extract f with
  | none => simp [stagedDoc, hx] at h
  | some c =>
    simp only [stagedDoc, hx] at h
    by_cases hc : c = ""
    · rw [if_pos hc] at h; cases h
    · rw [if_neg hc] at h
      exact ⟨c, rfl, hc, (Option.some_injective _ h).symm⟩

theorem exists_of_get_eq_some {idx : List Doc} {p : Path} {t : Token}
    (h : get_file_mod_time idx p = some t) :
    ∃ d, d ∈ idx ∧ d.filepath = p ∧ d.modified = t := by
  unfold get_file_mod_time at h
  cases hf : idx.find? (fun d => decide (d.filepath = p)) with
  | none => rw [hf] at h; exact absurd h (by simp)
  | some d =>
    rw [hf] at h
    refine ⟨d, List.mem_of_find?_eq_some hf, ?_, Option.some_injective _ h⟩
    have hp := List.find?_some hf
    simpa using hp

theorem mem_indexedFiles_of_get_eq_some {idx : List Doc} {p : Path} {t : Token}
    (h : get_file_mod_time idx p = some t) : p ∈ indexedFiles idx := by
  obtain ⟨d, hd, hfp, _⟩ := exists_of_get_eq_some h
  exact List.mem_map.mpr ⟨d, hd, hfp⟩

/-! ### Uniqueness of keys -/

theorem snd_eq_of_keys_nodup {l : List (Path × Token)}
    (h : (l.map Prod.fst).Nodup) {p : Path} {a b : Token}
    (ha : (p, a) ∈ l) (hb : (p, b) ∈ l) : a = b := by
  induction l with
  | nil => cases ha
  | cons x xs ih =>
    rw [List.map_cons, List.nodup_cons] at h
    rcases List.mem_cons.mp ha with ha' | ha' <;>
      rcases List.mem_cons.mp hb with hb' | hb'
    · exact congrArg Prod.snd (ha'.trans hb'.symm)
    · exact absurd (List.mem_map.mpr ⟨(p, b), hb', by rw [← ha']⟩) h.1
    · exact absurd (List.mem_map.mpr ⟨(p, a), ha', by rw [← hb']⟩) h.1
    · exact ih h.2 ha' hb'

theorem find?_eq_some_of_paths_nodup {l : List Doc}
    (hn : (indexedFiles l).Nodup) {d : Doc} {f : Path}
    (hd : d ∈ l) (hf : d.filepath = f) :
    l.find? (fun x => decide (x.filepath = f)) = some d := by
  induction l with
  | nil => cases hd
  | cons x xs ih =>
    rw [indexedFiles, List.map_cons, List.nodup_cons] at hn
    by_cases hx : x.filepath = f
    · have hdx : d = x := by
        rcases List.mem_cons.mp hd with h | h
        · exact h
        · exact absurd (hx ▸ hf ▸ List.mem_map.mpr ⟨d, h, rfl⟩) hn.1
      have hpx : (fun y => decide (y.filepath = f)) x = true := by simpa using hx
      rw [List.find?_cons_of_pos xs hpx, hdx]
    · have hdx : d ∈ xs := by
        rcases List.mem_cons.mp hd with h | h
        · exact absurd (h ▸ hf) hx
        · exact h
      have hpx : ¬ (fun y => decide (y.filepath = f)) x = true := by simpa using hx
      rw [List.find?_cons_of_neg xs hpx]
      exact ih hn.2 hdx

theorem get_eq_of_mem_of_paths_nodup {l : List Doc}
    (hn : (indexedFiles l).Nodup) {d : Doc} {f : Path}
    (hd : d ∈ l) (hf : d.filepath = f) :
    get_file_mod_time l f = some d.modified := by
  unfold get_file_mod_time
  rw [find?_eq_some_of_paths_nodup hn hd hf]

/-! ### Paths appearing in the staged upserts -/

theorem filepath_of_mem_stagedUpserts {idx : List Doc}
    {files : List (Path × Token)} {extract : Path → Option String} {d : Doc}
    (h : d ∈ stagedUpserts idx files extract) :
    d.filepath ∈ files.map Prod.fst := by
  obtain ⟨fm, hfm, _, hstage⟩ := mem_stagedUpserts.mp h
  obtain ⟨c, _, _, hd⟩ := stagedDoc_eq_some hstage
  exact List.mem_map.mpr ⟨fm, hfm, by rw [hd]⟩

theorem stagedUpserts_paths_sublist (idx : List Doc)
    (files : List (Path × Token)) (extract : Path → Option String) :
    ((stagedUpserts idx files extract).map Doc.filepath).Sublist
      ((toProcess idx files).map Prod.fst) := by
  unfold stagedUpserts
  induction toProcess idx files with
  | nil => simp
  | cons x xs ih =>
    cases h : stagedDoc extract x.1 x.2 with
    | none =>
      simp only [List.filterMap_cons, h, List.map_cons]
      exact List.Sublist.cons _ ih
    | some d =>
      obtain ⟨c, _, _, hd⟩ := stagedDoc_eq_some h
      simp only [List.filterMap_cons, h, List.map_cons, hd]
      exact List.Sublist.cons₂ _ ih

theorem stagedUpserts_paths_nodup {idx : List Doc}
    {files : List (Path × Token)} (extract : Path → Option String)
    (hkeys : (files.map Prod.fst).Nodup) :
    ((stagedUpserts idx files extract).map Doc.filepath).Nodup := by
  have h1 : ((toProcess idx files).map Prod.fst).Sublist (files.map Prod.fst) :=
    (List.filter_sublist files).map Prod.fst
  exact (hkeys.sublist h1).sublist (stagedUpserts_paths_sublist idx files extract)

theorem commitIndex_paths_nodup {idx ups : List Doc} {dels : List Path}
    (hidx : (indexedFiles idx).Nodup)
    (hups : (ups.map Doc.filepath).Nodup) :
    (indexedFiles (commitIndex idx ups dels)).Nodup := by
  unfold indexedFiles commitIndex
  rw [List.map_append, List.nodup_append]
  refine ⟨hidx.sublist ((List.filter_sublist idx).map Doc.filepath), hups, ?_⟩
  intro a ha hb
  obtain ⟨d, hd, hfp⟩ := List.mem_map.mp ha
  have := (List.mem_filter.mp hd).2
  rw [decide_eq_true_eq] at this
  exact this.2 (hfp ▸ hb)

/-! ### Every committed document comes from the scan -/

theorem filepath_mem_scan_of_mem_newIndex {files : List (Path × Token)}
    {extract : Path → Option String} {idx : List Doc} {d : Doc}
    (h : d ∈ (update_index files extract idx).newIndex) :
    d.filepath ∈ files.map Prod.fst := by
  rcases mem_commitIndex.mp h with ⟨hd, hdel, _⟩ | hup
  · by_contra hnot
    exact hdel (mem_stagedDeletes.mpr ⟨List.mem_map.mpr ⟨d, hd, rfl⟩, hnot⟩)
  · exact filepath_of_mem_stagedUpserts hup

/-! ### Shape of the progress stream -/

theorem progressList_getLast (n : Nat) : (progressList n).getLast? = some 100 := by
  unfold progressList
  exact List.getLast?_concat _

theorem progressList_mem_bounds {n : Nat} {x : ℚ} (hx : x ∈ progressList n) :
    0 ≤ x ∧ x ≤ 100 := by
  unfold progressList at hx
  rcases List.mem_append.mp hx with h | h
  · obtain ⟨i, hi, hix⟩ := List.mem_map.mp h
    rw [List.mem_range] at hi
    have hn0 : 0 < n := Nat.lt_of_le_of_lt (Nat.zero_le i) hi
    have hn : (0 : ℚ) < (n : ℚ) := by exact_mod_cast hn0
    rw [← hix]
    constructor
    · positivity
    · have h1 : (((i + 1 : Nat) : ℚ)) / (n : ℚ) ≤ 1 := by
        rw [div_le_one hn]
        exact_mod_cast Nat.succ_le_of_lt hi
      calc (((i + 1 : Nat) : ℚ)) / (n : ℚ) * 100 ≤ 1 * 100 := by
            exact mul_le_mul_of_nonneg_right h1 (by norm_num)
        _ = 100 := by norm_num
  · rw [List.mem_singleton] at h
    rw [h]
    norm_num

theorem progressList_pairwise (n : Nat) :
    (progressList n).Pairwise (fun a b => a ≤ b) := by
  unfold progressList
  rw [List.pairwise_append]
  refine ⟨?_, List.pairwise_singleton _ _, ?_⟩
  · rw [List.pairwise_map]
    refine (List.pairwise_lt_range n).imp ?_
    intro a b hab
    rcases Nat.eq_zero_or_pos n with h0 | h0
    · subst h0
      simp
    · have hn : (0 : ℚ) < (n : ℚ) := by exact_mod_cast h0
      have hnum : (((a + 1 : Nat) : ℚ)) ≤ (((b + 1 : Nat) : ℚ)) := by
        exact_mod_cast Nat.succ_le_succ hab.le
      exact mul_le_mul_of_nonneg_right
        ((div_le_div_iff_of_pos_right hn).mpr hnum) (by norm_num)
  · intro a ha b hb
    rw [List.mem_singleton] at hb
    rw [hb]
    exact (progressList_mem_bounds
      (by unfold progressList; exact List.mem_append_left _ ha)).2

/-! ### Claim theorems -/

/-- C1: for every path present in the current scan whose stored modified
token in the index equals the scan's modified token for that path, the
run does not call the extractor for that path — the test at line 146
fails, so the `extract_text` call at line 147 is not reached. -/
theorem extraction_skipped_when_token_unchanged
    (files : List (Path × Token)) (extract : Path → Option String)
    (idx : List Doc) (p : Path) (t : Token)
    (hkeys : (files.map Prod.fst).Nodup)
    (hmem : (p, t) ∈ files)
    (hstored : get_file_mod_time idx p = some t) :
    p ∉ (update_index files extract idx).extracted := by
  intro hp
  have hp' : p ∈ (toProcess idx files).map Prod.fst := hp
  obtain ⟨fm, hfm, hfst⟩ := List.mem_map.mp hp'
  obtain ⟨hfm_files, hproc⟩ := mem_toProcess.mp hfm
  have hpair : (p, fm.2) ∈ files := by
    rw [← hfst]; simpa using hfm_files
  have ht : fm.2 = t := snd_eq_of_keys_nodup hkeys hpair hmem
  rw [hfst, ht] at hproc
  rcases shouldProcess_true_iff.mp hproc with h | h
  · exact h (mem_indexedFiles_of_get_eq_some hstored)
  · exact h hstored

/-- C1 witness: a concrete indexed file whose token is unchanged is not
re-extracted. -/
theorem extraction_skipped_when_token_unchanged_witness :
    ((([("a", "1")] : List (Path × Token)).map Prod.fst).Nodup ∧
      get_file_mod_time [⟨"a", "a", "hello", "1"⟩] "a" = some "1") ∧
    "a" ∉ (update_index [("a", "1")] (fun _ => some "hello")
      [⟨"a", "a", "hello", "1"⟩]).extracted :=
  ⟨⟨by decide, by decide⟩,
    extraction_skipped_when_token_unchanged [("a", "1")] (fun _ => some "hello")
      [⟨"a", "a", "hello", "1"⟩] "a" "1" (by decide) (by decide) (by decide)⟩

/-- C2: every previously indexed path absent from the current scan is
staged for deletion (lines 160-162), is gone from the committed
snapshot, and no subsequent search over that snapshot — for any query
and any `top_n` — returns a result referencing it. -/
theorem deleted_path_removed_and_unsearchable
    (files : List (Path × Token)) (extract : Path → Option String)
    (idx : List Doc) (p : Path)
    (hidx : p ∈ indexedFiles idx)
    (hgone : p ∉ files.map Prod.fst) :
    p ∈ (update_index files extract idx).deletes ∧
    p ∉ indexedFiles (update_index files extract idx).newIndex ∧
    ∀ q top_n, p ∉ search (update_index files extract idx).newIndex q top_n := by
  refine ⟨mem_stagedDeletes.mpr ⟨hidx, hgone⟩, ?_, ?_⟩
  · intro hp
    obtain ⟨d, hd, hfp⟩ := List.mem_map.mp hp
    exact hgone (hfp ▸ filepath_mem_scan_of_mem_newIndex hd)
  · intro q top_n hp
    have hp' : p ∈ ((update_index files extract idx).newIndex.filter
        (fun d => matchesQuery d q)).map Doc.filepath :=
      List.take_subset _ _ hp
    obtain ⟨d, hd, hfp⟩ := List.mem_map.mp hp'
    exact hgone (hfp ▸ filepath_mem_scan_of_mem_newIndex (List.mem_filter.mp hd).1)

/-- C2 witness: a concrete deleted file disappears from the snapshot and
from the search results for a term unique to it. -/
theorem deleted_path_removed_and_unsearchable_witness :
    "b" ∈ (update_index [("a", "1")] (fun _ => some "hello")
        [⟨"b", "b", "secret", "1"⟩]).deletes ∧
    "b" ∉ indexedFiles (update_index [("a", "1")] (fun _ => some "hello")
        [⟨"b", "b", "secret", "1"⟩]).newIndex ∧
    ∀ q top_n, "b" ∉ search (update_index [("a", "1")] (fun _ => some "hello")
        [⟨"b", "b", "secret", "1"⟩]).newIndex q top_n :=
  deleted_path_removed_and_unsearchable [("a", "1")] (fun _ => some "hello")
    [⟨"b", "b", "secret", "1"⟩] "b" (by decide) (by decide)

/-- C10: after any fully iterated run, every document remaining in the
committed snapshot has a filepath that was present in that run's scan of
`folder_path`; consequently every document indexed under a previously
selected root that lies outside the current scan is staged for deletion
and absent from the committed snapshot (the index directory is the
shared module-level `INDEX_DIR`, so the old documents live in the same
index the new run commits to). -/
theorem index_root_scoped
    (fs : FileSystem) (root : Path) (extract : Path → Option String)
    (idx : List Doc) :
    (∀ d ∈ (updateRun fs root extract idx).newIndex,
        d.filepath ∈ (get_all_files fs root).map Prod.fst) ∧
    (∀ d ∈ idx, d.filepath ∉ (get_all_files fs root).map Prod.fst →
        d.filepath ∈ (updateRun fs root extract idx).deletes ∧
        d.filepath ∉ indexedFiles (updateRun fs root extract idx).newIndex) := by
  constructor
  · intro d hd
    exact filepath_mem_scan_of_mem_newIndex hd
  · intro d hd hout
    refine ⟨mem_stagedDeletes.mpr ⟨List.mem_map.mpr ⟨d, hd, rfl⟩, hout⟩, ?_⟩
    intro hp
    obtain ⟨d', hd', hfp⟩ := List.mem_map.mp hp
    exact hout (hfp ▸ filepath_mem_scan_of_mem_newIndex hd')

/-- C10 witness: with the current root scanning only `/r`, a document
previously indexed under `/old` is deleted by the run. -/
theorem index_root_scoped_witness :
    "/old/x.txt" ∈ (updateRun ⟨["/r"], [("/r/a.txt", "1")]⟩ "/r"
        (fun _ => some "hello") [⟨"/old/x.txt", "/old/x.txt", "w", "1"⟩]).deletes ∧
    "/old/x.txt" ∉ indexedFiles (updateRun ⟨["/r"], [("/r/a.txt", "1")]⟩ "/r"
        (fun _ => some "hello") [⟨"/old/x.txt", "/old/x.txt", "w", "1"⟩]).newIndex :=
  (index_root_scoped ⟨["/r"], [("/r/a.txt", "1")]⟩ "/r" (fun _ => some "hello")
      [⟨"/old/x.txt", "/old/x.txt", "w", "1"⟩]).2
    ⟨"/old/x.txt", "/old/x.txt", "w", "1"⟩ (by decide) (by decide)

/-- A path absent from the snapshot's keys is never returned by a
search over that snapshot. -/
theorem not_mem_search_of_not_mem_paths {idx : List Doc} {p : Path}
    (h : p ∉ indexedFiles idx) (q : List String) (top_n : Nat) :
    p ∉ search idx q top_n := by
  intro hp
  have hp' := List.take_subset _ _ hp
  obtain ⟨d, hd, hfp⟩ := List.mem_map.mp hp'
  exact h (List.mem_map.mpr ⟨d, (List.mem_filter.mp hd).1, hfp⟩)

/-- C5 counterexample: with a root that is not an existing directory and
a nonempty prior index, the run does not fail before any index
mutation — it completes, yields the single progress value 100, and
commits a mutation that deletes every previously indexed document
(`os.walk` silently yields nothing for a nonexistent root). -/
theorem invalid_root_counterexample :
    "/missing" ∉ (⟨["/data"], [("/data/a.txt", "1")]⟩ : FileSystem).dirs ∧
    (updateRun ⟨["/data"], [("/data/a.txt", "1")]⟩ "/missing" (fun _ => none)
        [⟨"/old.txt", "/old.txt", "hello", "0"⟩]).progress = [100] ∧
    (updateRun ⟨["/data"], [("/data/a.txt", "1")]⟩ "/missing" (fun _ => none)
        [⟨"/old.txt", "/old.txt", "hello", "0"⟩]).newIndex = [] := by
  refine ⟨by decide, rfl, by decide⟩

/-- C5 (amended): for every root that is not an existing directory,
`update` completes normally instead of failing: the scan is treated as
empty, the progress stream is the single value 100, and the commit
deletes every previously indexed document. -/
theorem invalid_root_completes_and_clears
    (fs : FileSystem) (root : Path) (extract : Path → Option String)
    (idx : List Doc) (hroot : root ∉ fs.dirs) :
    (updateRun fs root extract idx).progress = [100] ∧
    (updateRun fs root extract idx).newIndex = [] := by
  have hscan : get_all_files fs root = [] := by
    unfold get_all_files
    rw [if_neg hroot]
  constructor
  · show progressList (get_all_files fs root).length = [100]
    rw [hscan]
    rfl
  · show commitIndex idx (stagedUpserts idx (get_all_files fs root) extract)
      (stagedDeletes idx (get_all_files fs root)) = []
    rw [hscan]
    have hdel : stagedDeletes idx [] = indexedFiles idx := by
      simp [stagedDeletes]
    rw [show stagedUpserts idx [] extract = [] from rfl, hdel]
    unfold commitIndex
    rw [List.append_nil]
    refine List.filter_eq_nil_iff.mpr ?_
    intro d hd
    simp only [List.map_nil, List.not_mem_nil, not_false_iff, and_true,
      decide_eq_true_eq, not_not]
    exact List.mem_map.mpr ⟨d, hd, rfl⟩

/-- C5 witness for the amended claim, at a concrete invalid root. -/
theorem invalid_root_completes_and_clears_witness :
    ("/missing" ∉ (⟨["/data"], [("/data/a.txt", "1")]⟩ : FileSystem).dirs) ∧
    (updateRun ⟨["/data"], [("/data/a.txt", "1")]⟩ "/missing" (fun _ => some "x")
        [⟨"/x", "/x", "c", "1"⟩]).progress = [100] ∧
    (updateRun ⟨["/data"], [("/data/a.txt", "1")]⟩ "/missing" (fun _ => some "x")
        [⟨"/x", "/x", "c", "1"⟩]).newIndex = [] :=
  ⟨by decide,
    (invalid_root_completes_and_clears ⟨["/data"], [("/data/a.txt", "1")]⟩
      "/missing" (fun _ => some "x") [⟨"/x", "/x", "c", "1"⟩] (by decide)).1,
    (invalid_root_completes_and_clears ⟨["/data"], [("/data/a.txt", "1")]⟩
      "/missing" (fun _ => some "x") [⟨"/x", "/x", "c", "1"⟩] (by decide)).2⟩

/-- C6: for every scanned path whose extraction returns `None`, the run
completes (its progress stream still ends in 100), the path is never
staged for deletion, any existing record for it is carried unchanged
into the committed snapshot, and on a later run where the path is new or
its token differs and extraction succeeds with nonempty text, the path
is (re)indexed with the new content and token. -/
theorem extraction_failure_atomicity
    (files : List (Path × Token)) (extract : Path → Option String)
    (idx : List Doc) (p : Path) (t : Token)
    (hmem : (p, t) ∈ files)
    (hfail : extract p = none) :
    (update_index files extract idx).progress.getLast? = some 100 ∧
    p ∉ (update_index files extract idx).deletes ∧
    (∀ d ∈ idx, d.filepath = p → d ∈ (update_index files extract idx).newIndex) ∧
    (∀ (files' : List (Path × Token)) (extract' : Path → Option String)
        (idx' : List Doc) (t' : Token) (c : String),
      (p, t') ∈ files' → extract' p = some c → c ≠ "" →
      shouldProcess idx' p t' = true →
      (⟨p, p, c, t'⟩ : Doc) ∈ (update_index files' extract' idx').newIndex) := by
  have hpkeys : p ∈ files.map Prod.fst := List.mem_map.mpr ⟨(p, t), hmem, rfl⟩
  refine ⟨progressList_getLast _, ?_, ?_, ?_⟩
  · intro hcon
    exact (mem_stagedDeletes.mp hcon).2 hpkeys
  · intro d hd hfp
    refine mem_commitIndex.mpr (Or.inl ⟨hd, ?_, ?_⟩)
    · rw [hfp]
      intro hcon
      exact (mem_stagedDeletes.mp hcon).2 hpkeys
    · rw [hfp]
      intro hcon
      obtain ⟨d', hd', hfp'⟩ := List.mem_map.mp hcon
      obtain ⟨fm, _, _, hstaged⟩ := mem_stagedUpserts.mp hd'
      obtain ⟨c, hc, _, hd_eq⟩ := stagedDoc_eq_some hstaged
      have : fm.1 = p := by rw [← hfp', hd_eq]
      rw [this] at hc
      rw [hfail] at hc
      cases hc
  · intro files' extract' idx' t' c hmem' hex hne hsp
    refine mem_commitIndex.mpr (Or.inr (mem_stagedUpserts.mpr
      ⟨(p, t'), hmem', hsp, ?_⟩))
    simp only [stagedDoc, hex, if_neg hne]

/-- C6 witness: a concrete failed extraction leaves the old record in
place, and a later successful run with a changed token re-indexes the
path. -/
theorem extraction_failure_atomicity_witness :
    (⟨"a", "a", "old", "0"⟩ : Doc) ∈ (update_index [("a", "1")] (fun _ => none)
        [⟨"a", "a", "old", "0"⟩]).newIndex ∧
    (⟨"a", "a", "new", "2"⟩ : Doc) ∈ (update_index [("a", "2")] (fun _ => some "new")
        [⟨"a", "a", "old", "0"⟩]).newIndex :=
  ⟨(extraction_failure_atomicity [("a", "1")] (fun _ => none)
      [⟨"a", "a", "old", "0"⟩] "a" "1" (by decide) rfl).2.2.1
      ⟨"a", "a", "old", "0"⟩ (by decide) rfl,
    (extraction_failure_atomicity [("a", "1")] (fun _ => none)
      [⟨"a", "a", "old", "0"⟩] "a" "1" (by decide) rfl).2.2.2
      [("a", "2")] (fun _ => some "new") [⟨"a", "a", "old", "0"⟩] "2" "new"
      (by decide) rfl (by decide) (by decide)⟩

/-- C7 counterexample: a file whose extraction succeeds with empty text
gets no index record at all — `if content:` is false for the empty
string, so no `update_document` is staged and the committed snapshot is
empty, contradicting the claimed minimal record. -/
theorem empty_extraction_counterexample :
    (update_index [("a.txt", "1")] (fun _ => some "") []).newIndex = [] ∧
    "a.txt" ∉ indexedFiles (update_index [("a.txt", "1")]
      (fun _ => some "") []).newIndex := by
  exact ⟨by decide, by decide⟩

/-- C7 (amended): for every file whose extraction succeeds but yields
empty text, `update` creates no record for it: if the path was not
previously indexed it is absent from the committed snapshot and matches
no query at all (content or path). -/
theorem empty_extraction_no_record
    (files : List (Path × Token)) (extract : Path → Option String)
    (idx : List Doc) (p : Path) (t : Token)
    (_hmem : (p, t) ∈ files)
    (hempty : extract p = some "")
    (hnew : p ∉ indexedFiles idx) :
    p ∉ indexedFiles (update_index files extract idx).newIndex ∧
    ∀ q top_n, p ∉ search (update_index files extract idx).newIndex q top_n := by
  have habs : p ∉ indexedFiles (update_index files extract idx).newIndex := by
    intro hp
    obtain ⟨d, hd, hfp⟩ := List.mem_map.mp hp
    rcases mem_commitIndex.mp hd with ⟨hold, _, _⟩ | hup
    · exact hnew (List.mem_map.mpr ⟨d, hold, hfp⟩)
    · obtain ⟨fm, _, _, hstaged⟩ := mem_stagedUpserts.mp hup
      obtain ⟨c, hc, hcne, hd_eq⟩ := stagedDoc_eq_some hstaged
      have hfm1 : fm.1 = p := by rw [← hfp, hd_eq]
      rw [hfm1, hempty] at hc
      exact hcne (Option.some_injective _ hc.symm)
  exact ⟨habs, fun q top_n => not_mem_search_of_not_mem_paths habs q top_n⟩

/-- C7 witness for the amended claim. -/
theorem empty_extraction_no_record_witness :
    "a.txt" ∉ indexedFiles (update_index [("a.txt", "1")]
        (fun _ => some "") []).newIndex ∧
    ∀ q top_n, "a.txt" ∉ search (update_index [("a.txt", "1")]
        (fun _ => some "") []).newIndex q top_n :=
  ⟨(empty_extraction_no_record [("a.txt", "1")] (fun _ => some "") []
      "a.txt" "1" (by decide) rfl (by decide)).1,
    (empty_extraction_no_record [("a.txt", "1")] (fun _ => some "") []
      "a.txt" "1" (by decide) rfl (by decide)).2⟩

/-- C9: calling the generator function `update_index` executes none of
its body — the call returns a suspended generator and the index state is
unchanged, as in the `__main__` block which never iterates the generator
it creates; fully iterating the same generator performs the entire run
(shown at a concrete input where iterating would have indexed a file). -/
theorem update_index_lazy
    (files : List (Path × Token)) (extract : Path → Option String)
    (idx : List Doc) :
    mainBlock files extract idx = idx ∧
    iterateAll (callUpdateIndex files extract idx).1
      = update_index files extract idx ∧
    mainBlock [("a.txt", "1")] (fun _ => some "hello") [] = [] ∧
    (iterateAll (callUpdateIndex [("a.txt", "1")]
        (fun _ => some "hello") []).1).newIndex
      = [⟨"a.txt", "a.txt", "hello", "1"⟩] :=
  ⟨rfl, rfl, rfl, by decide⟩

/-- C4: the progress stream of every run is a finite list whose values
all lie in [0, 100], is monotonically non-decreasing, ends in exactly
100 (the value yielded after the commit), and equals the single value
100 when the scan finds zero files. -/
theorem progress_stream_shape
    (files : List (Path × Token)) (extract : Path → Option String)
    (idx : List Doc) :
    (∀ x ∈ (update_index files extract idx).progress, 0 ≤ x ∧ x ≤ 100) ∧
    ((update_index files extract idx).progress).Pairwise (fun a b => a ≤ b) ∧
    ((update_index files extract idx).progress).getLast? = some 100 ∧
    (files = [] → (update_index files extract idx).progress = [100]) := by
  refine ⟨fun x hx => progressList_mem_bounds hx, progressList_pairwise _,
    progressList_getLast _, ?_⟩
  intro h
  subst h
  rfl

/-- C4 witness at concrete inputs, the empty scan included. -/
theorem progress_stream_shape_witness :
    (update_index [] (fun _ => none) []).progress = [100] ∧
    ((update_index [("a", "1")] (fun _ => some "x") []).progress).getLast?
      = some 100 :=
  ⟨(progress_stream_shape [] (fun _ => none) []).2.2.2 rfl,
    (progress_stream_shape [("a", "1")] (fun _ => some "x") []).2.2.1⟩

/-- C3: running the reconciliation twice with the same scan and the same
extractor leaves the snapshot of the second run identical to the first
run's, and the second run stages zero upserts and zero deletions. -/
theorem update_idempotent
    (files : List (Path × Token)) (extract : Path → Option String)
    (idx : List Doc)
    (hkeys : (files.map Prod.fst).Nodup)
    (hidx : (indexedFiles idx).Nodup) :
    (update_index files extract
        (update_index files extract idx).newIndex).newIndex
      = (update_index files extract idx).newIndex ∧
    (update_index files extract
        (update_index files extract idx).newIndex).upserts = [] ∧
    (update_index files extract
        (update_index files extract idx).newIndex).deletes = [] := by
  have hNnodup : (indexedFiles (update_index files extract idx).newIndex).Nodup :=
    commitIndex_paths_nodup hidx (stagedUpserts_paths_nodup extract hkeys)
  have hdel2 : stagedDeletes (update_index files extract idx).newIndex files = [] := by
    unfold stagedDeletes
    refine List.filter_eq_nil_iff.mpr ?_
    intro f hf
    obtain ⟨d, hd, hfp⟩ := List.mem_map.mp hf
    simp only [decide_eq_true_eq, not_not]
    exact hfp ▸ filepath_mem_scan_of_mem_newIndex hd
  have hup2 : stagedUpserts (update_index files extract idx).newIndex files extract
      = [] := by
    unfold stagedUpserts
    refine List.filterMap_eq_nil_iff.mpr ?_
    intro fm hfm
    obtain ⟨hfm_files, hproc2⟩ := mem_toProcess.mp hfm
    cases hstaged : stagedDoc extract fm.1 fm.2 with
    | none => rfl
    | some d =>
      exfalso
      obtain ⟨c, hc, hcne, hd_eq⟩ := stagedDoc_eq_some hstaged
      cases hsp1 : shouldProcess idx fm.1 fm.2 with
      | true =>
        have hd_ups : d ∈ stagedUpserts idx files extract :=
          mem_stagedUpserts.mpr ⟨fm, hfm_files, hsp1, hstaged⟩
        have hd_N : d ∈ (update_index files extract idx).newIndex :=
          mem_commitIndex.mpr (Or.inr hd_ups)
        have hdfp : d.filepath = fm.1 := by rw [hd_eq]
        have hdm : d.modified = fm.2 := by rw [hd_eq]
        have hget : get_file_mod_time (update_index files extract idx).newIndex fm.1
            = some fm.2 := by
          have h := get_eq_of_mem_of_paths_nodup hNnodup hd_N hdfp
          rw [hdm] at h
          exact h
        have hfalse : shouldProcess (update_index files extract idx).newIndex
            fm.1 fm.2 = false :=
          shouldProcess_false_iff.mpr ⟨List.mem_map.mpr ⟨d, hd_N, hdfp⟩, hget⟩
        rw [hfalse] at hproc2
        exact Bool.false_ne_true hproc2
      | false =>
        obtain ⟨hfmem, hget1⟩ := shouldProcess_false_iff.mp hsp1
        obtain ⟨d₀, hd₀, hfp₀, hmod₀⟩ := exists_of_get_eq_some hget1
        have hfkeys : fm.1 ∈ files.map Prod.fst :=
          List.mem_map.mpr ⟨fm, hfm_files, rfl⟩
        have hnotdel : fm.1 ∉ stagedDeletes idx files := by
          intro hcon
          exact (mem_stagedDeletes.mp hcon).2 hfkeys
        have hnotup : fm.1 ∉ (stagedUpserts idx files extract).map Doc.filepath := by
          intro hcon
          obtain ⟨d', hd', hfp'⟩ := List.mem_map.mp hcon
          obtain ⟨fm', hfm', hsp', hst'⟩ := mem_stagedUpserts.mp hd'
          obtain ⟨c', hc', hcne', hd'_eq⟩ := stagedDoc_eq_some hst'
          have hfst' : fm'.1 = fm.1 := by rw [← hfp', hd'_eq]
          have hpair1 : (fm.1, fm'.2) ∈ files := by
            rw [← hfst']
            simpa using hfm'
          have hpair2 : (fm.1, fm.2) ∈ files := by simpa using hfm_files
          have hsnd : fm'.2 = fm.2 := snd_eq_of_keys_nodup hkeys hpair1 hpair2
          rw [hfst', hsnd] at hsp'
          rw [hsp'] at hsp1
          exact Bool.false_ne_true hsp1.symm
        have hd₀_N : d₀ ∈ (update_index files extract idx).newIndex :=
          mem_commitIndex.mpr (Or.inl ⟨hd₀,
            by rw [hfp₀]; exact hnotdel, by rw [hfp₀]; exact hnotup⟩)
        have hget2 : get_file_mod_time (update_index files extract idx).newIndex fm.1
            = some fm.2 := by
          have h := get_eq_of_mem_of_paths_nodup hNnodup hd₀_N hfp₀
          rw [hmod₀] at h
          exact h
        have hfalse : shouldProcess (update_index files extract idx).newIndex
            fm.1 fm.2 = false :=
          shouldProcess_false_iff.mpr ⟨List.mem_map.mpr ⟨d₀, hd₀_N, hfp₀⟩, hget2⟩
        rw [hfalse] at hproc2
        exact Bool.false_ne_true hproc2
  refine ⟨?_, hup2, hdel2⟩
  show commitIndex (update_index files extract idx).newIndex
      (stagedUpserts (update_index files extract idx).newIndex files extract)
      (stagedDeletes (update_index files extract idx).newIndex files)
    = (update_index files extract idx).newIndex
  rw [hup2, hdel2]
  unfold commitIndex
  simp

/-- C3 witness: a concrete second run changes nothing and stages
nothing. -/
theorem update_idempotent_witness :
    (update_index [("a", "1")] (fun _ => some "hello")
        (update_index [("a", "1")] (fun _ => some "hello") []).newIndex).newIndex
      = (update_index [("a", "1")] (fun _ => some "hello") []).newIndex ∧
    (update_index [("a", "1")] (fun _ => some "hello")
        (update_index [("a", "1")] (fun _ => some "hello") []).newIndex).upserts
      = [] ∧
    (update_index [("a", "1")] (fun _ => some "hello")
        (update_index [("a", "1")] (fun _ => some "hello") []).newIndex).deletes
      = [] :=
  update_idempotent [("a", "1")] (fun _ => some "hello") [] (by decide) (by decide)

end SomeBM25
